import Mathlib

/-!
Verification of the investflow-backend portfolio-optimization core.

The Python source is shallowly embedded over exact rationals:
vectors are functions `Fin n → ℚ`, matrices are Mathlib matrices over ℚ,
`numpy.linalg.inv` (which raises `LinAlgError` exactly on a singular input)
is modelled by an explicit adjugate-based inverse guarded by a determinant
test, and Python exceptions are modelled by `Except` with an error type
mirroring the specification's error taxonomy.  The external `scipy`
solver is modelled as an oracle argument where a claim depends on it.
-/

open Matrix BigOperators

namespace InvestFlow

/-- Error taxonomy of the specification.  The Python source raises
`ValueError` at every site; the constructor used here records which
taxonomy class the specification assigns to that raise site. -/
inductive OptError
  | numericalError
  | validationError
  | convergenceError
deriving DecidableEq

/-- The all-ones vector, `np.ones(N)` in the source. -/
def ones (n : ℕ) : Fin n → ℚ := fun _ => 1

/-- Exact matrix inverse, modelling `np.linalg.inv` on a nonsingular input.
For a singular input the source raises; callers therefore test the
determinant before using `minv`. -/
def minv {n : ℕ} (A : Matrix (Fin n) (Fin n) ℚ) : Matrix (Fin n) (Fin n) ℚ :=
  (A.det)⁻¹ • A.adjugate

lemma minv_eq {n : ℕ} (A : Matrix (Fin n) (Fin n) ℚ) : minv A = A⁻¹ := by
  rw [Matrix.inv_def, Ring.inverse_eq_inv]
  rfl

lemma ones_dot {n : ℕ} (x : Fin n → ℚ) : ones n ⬝ᵥ x = ∑ i, x i := by
  simp [Matrix.dotProduct, ones]

/-! ## Mean-variance optimizer (src/services/optimizers/mean_variance.py)

Embedding of `Mean_variance_optimizer`.  The constructor inverts the
covariance matrix (raising on a singular input) and precomputes
`A = Σ⁻¹·1`, `B = Σ⁻¹·μ`, `a = 1ᵗA`, `b = 1ᵗB`. -/

structure MVState (n : ℕ) where
  mu : Fin n → ℚ
  S : Matrix (Fin n) (Fin n) ℚ
  S_inv : Matrix (Fin n) (Fin n) ℚ
  A : Fin n → ℚ
  B : Fin n → ℚ
  a : ℚ
  b : ℚ

/-- The state built by `Mean_variance_optimizer.__init__` when the
covariance matrix is invertible. -/
def mvStateOf {n : ℕ} (mu : Fin n → ℚ) (S : Matrix (Fin n) (Fin n) ℚ) : MVState n :=
  { mu := mu
    S := S
    S_inv := minv S
    A := minv S *ᵥ ones n
    B := minv S *ᵥ mu
    a := ones n ⬝ᵥ (minv S *ᵥ ones n)
    b := ones n ⬝ᵥ (minv S *ᵥ mu) }

/-- Embedding of `Mean_variance_optimizer.__init__`: raises on a singular
covariance matrix (`np.linalg.inv` raises `LinAlgError`, re-raised as the
"Covariance matrix is not invertible" error), otherwise precomputes the
two-fund quantities. -/
def mkMeanVariance {n : ℕ} (mu : Fin n → ℚ) (S : Matrix (Fin n) (Fin n) ℚ) :
    Except OptError (MVState n) :=
  if S.det = 0 then .error .numericalError
  else .ok (mvStateOf mu S)

/-- Result record of `compute_portfolio`: weights, expected return,
variance, and the return/variance ratio (`none` models the `np.inf`
branch taken when the variance is zero). -/
structure MVResult (n : ℕ) where
  w : Fin n → ℚ
  mu_p : ℚ
  sigma_p2 : ℚ
  rVal : Option ℚ

/-- Body of `Mean_variance_optimizer.compute_portfolio` after the tau
validation: `w = (1/a)·A + τ·(B − (b/a)·A)`, `μ_p = w·μ`,
`σ_p² = wᵗΣw`, `ratio = μ_p/σ_p²` (infinite when `σ_p² = 0`). -/
def mvCore {n : ℕ} (st : MVState n) (tau : ℚ) : MVResult n :=
  let w := fun i => (1 / st.a) * st.A i + tau * (st.B i - (st.b / st.a) * st.A i)
  let mu_p := w ⬝ᵥ st.mu
  let sigma_p2 := w ⬝ᵥ (st.S *ᵥ w)
  { w := w
    mu_p := mu_p
    sigma_p2 := sigma_p2
    rVal := if sigma_p2 = 0 then none else some (mu_p / sigma_p2) }

/-- Embedding of `Mean_variance_optimizer.compute_portfolio`: raises
"Risk tolerance tau must be non-negative" when `τ < 0`, otherwise
returns the analytic portfolio. -/
def compute_portfolio {n : ℕ} (st : MVState n) (tau : ℚ) :
    Except OptError (MVResult n) :=
  if tau < 0 then .error .validationError
  else .ok (mvCore st tau)

/-- Modelled from the spec sentence only: `let A = Σ⁻¹·1, B = Σ⁻¹·μ,
a = 1ᵗA, b = 1ᵗB.  For risk-tolerance τ ≥ 0: w(τ) = (1/a)·A + τ·(B − (b/a)·A)`.
Used as the comparison point for claim C1; `minv` stands for `Σ⁻¹`
(they agree, see `minv_eq`). -/
def w_tau_spec {n : ℕ} (mu : Fin n → ℚ) (S : Matrix (Fin n) (Fin n) ℚ)
    (tau : ℚ) : Fin n → ℚ :=
  fun i =>
    (1 / (ones n ⬝ᵥ (minv S *ᵥ ones n))) * (minv S *ᵥ ones n) i
      + tau * ((minv S *ᵥ mu) i
          - ((ones n ⬝ᵥ (minv S *ᵥ mu)) / (ones n ⬝ᵥ (minv S *ᵥ ones n)))
              * (minv S *ᵥ ones n) i)

/-- C1: for every invertible covariance matrix Σ, mean vector μ and risk
tolerance τ ≥ 0, the analytic `compute_portfolio` succeeds and returns the
weight vector `w(τ) = (1/a)·A + τ·(B − (b/a)·A)` with `A = Σ⁻¹·1`,
`B = Σ⁻¹·μ`, `a = 1ᵗA`, `b = 1ᵗB`. -/
theorem c1_mean_variance_analytic_weights {n : ℕ} (mu : Fin n → ℚ)
    (S : Matrix (Fin n) (Fin n) ℚ) (tau : ℚ)
    (hdet : S.det ≠ 0) (htau : 0 ≤ tau) :
    mkMeanVariance mu S = .ok (mvStateOf mu S) ∧
    compute_portfolio (mvStateOf mu S) tau = .ok (mvCore (mvStateOf mu S) tau) ∧
    (mvCore (mvStateOf mu S) tau).w = w_tau_spec mu S tau := by
  refine ⟨?_, ?_, ?_⟩
  · rw [mkMeanVariance, if_neg hdet]
  · rw [compute_portfolio, if_neg (not_lt.2 htau)]
  · funext i
    rfl

/-- C1 witness: concrete instantiation at μ = (1/10, 1/5),
Σ = [[1,2],[2,9]] (determinant 5), τ = 1/2. -/
theorem c1_witness :
    mkMeanVariance ![(1:ℚ)/10, 1/5] !![(1:ℚ),2;2,9] =
      .ok (mvStateOf ![(1:ℚ)/10, 1/5] !![(1:ℚ),2;2,9]) ∧
    compute_portfolio (mvStateOf ![(1:ℚ)/10, 1/5] !![(1:ℚ),2;2,9]) (1/2) =
      .ok (mvCore (mvStateOf ![(1:ℚ)/10, 1/5] !![(1:ℚ),2;2,9]) (1/2)) ∧
    (mvCore (mvStateOf ![(1:ℚ)/10, 1/5] !![(1:ℚ),2;2,9]) (1/2)).w =
      w_tau_spec ![(1:ℚ)/10, 1/5] !![(1:ℚ),2;2,9] (1/2) :=
  c1_mean_variance_analytic_weights _ _ _
    (by rw [Matrix.det_fin_two_of]; norm_num) (by norm_num)

/-- C2 (amended): whenever the constant `a = 1ᵗΣ⁻¹1` is nonzero — in
particular for every positive-definite Σ — the analytic weights sum to 1
exactly, for every τ ≥ 0. -/
theorem c2_weights_sum_to_one {n : ℕ} (mu : Fin n → ℚ)
    (S : Matrix (Fin n) (Fin n) ℚ) (tau : ℚ)
    (hdet : S.det ≠ 0) (ha : ones n ⬝ᵥ (minv S *ᵥ ones n) ≠ 0) (htau : 0 ≤ tau) :
    mkMeanVariance mu S = .ok (mvStateOf mu S) ∧
    compute_portfolio (mvStateOf mu S) tau = .ok (mvCore (mvStateOf mu S) tau) ∧
    ones n ⬝ᵥ (mvCore (mvStateOf mu S) tau).w = 1 := by
  refine ⟨by rw [mkMeanVariance, if_neg hdet],
    by rw [compute_portfolio, if_neg (not_lt.2 htau)], ?_⟩
  have hA : (mvStateOf mu S).a = ∑ i, (minv S *ᵥ ones n) i := ones_dot _
  have hB : (mvStateOf mu S).b = ∑ i, (minv S *ᵥ mu) i := ones_dot _
  rw [ones_dot]
  show (∑ i, ((1 / (mvStateOf mu S).a) * (mvStateOf mu S).A i
      + tau * ((mvStateOf mu S).B i
        - ((mvStateOf mu S).b / (mvStateOf mu S).a) * (mvStateOf mu S).A i))) = 1
  rw [Finset.sum_add_distrib, ← Finset.mul_sum, ← Finset.mul_sum,
    Finset.sum_sub_distrib, ← Finset.mul_sum]
  have haS : (mvStateOf mu S).a = ∑ i, (mvStateOf mu S).A i := hA
  have hbS : (mvStateOf mu S).b = ∑ i, (mvStateOf mu S).B i := hB
  rw [← haS, ← hbS]
  have ha' : (mvStateOf mu S).a ≠ 0 := ha
  field_simp

/-- Zero mean vector on two assets, used by concrete instantiations. -/
def muZero2 : Fin 2 → ℚ := fun _ => 0

/-- Identity covariance matrix on two assets, used by concrete
instantiations. -/
def idS2 : Matrix (Fin 2) (Fin 2) ℚ := 1

/-- C2 witness: at μ = 0, Σ = I₂ (so a = 2), τ = 1, the analytic weights
sum to exactly 1. -/
theorem c2_witness :
    mkMeanVariance muZero2 idS2 = .ok (mvStateOf muZero2 idS2) ∧
    compute_portfolio (mvStateOf muZero2 idS2) 1 =
      .ok (mvCore (mvStateOf muZero2 idS2) 1) ∧
    ones 2 ⬝ᵥ (mvCore (mvStateOf muZero2 idS2) 1).w = 1 :=
  c2_weights_sum_to_one _ _ _ (by simp [idS2])
    (by
      rw [idS2, minv_eq, inv_one, ones_dot]
      simp [Matrix.one_mulVec, ones, Fin.sum_univ_two])
    (by norm_num)

/-- C2 counterexample: Σ = diag(1, −1) is invertible but has
`a = 1ᵗΣ⁻¹1 = 0`; with μ = 0 and τ = 1 the code divides by `a = 0`
(numpy produces non-finite weights; in the exact embedding the
division-by-zero convention yields 0), and the returned weights sum to 0,
not 1.  Hence the claim is false for general invertible Σ. -/
theorem c2_counterexample :
    mkMeanVariance (fun _ => (0:ℚ)) !![(1:ℚ),0;0,-1] =
      .ok (mvStateOf (fun _ => 0) !![(1:ℚ),0;0,-1]) ∧
    (compute_portfolio (mvStateOf (fun _ => (0:ℚ)) !![(1:ℚ),0;0,-1]) 1).toOption.map
      (fun r => ones 2 ⬝ᵥ r.w) = some 0 ∧ (0:ℚ) ≠ 1 := by
  refine ⟨?_, ?_, by norm_num⟩
  · rw [mkMeanVariance, if_neg]
    rw [Matrix.det_fin_two_of]
    norm_num
  · rw [compute_portfolio, if_neg (by norm_num)]
    show some (ones 2 ⬝ᵥ (mvCore (mvStateOf _ _) 1).w) = some 0
    congr 1
    rw [ones_dot]
    show (∑ i : Fin 2, ((1 / (mvStateOf (fun _ => (0:ℚ)) !![(1:ℚ),0;0,-1]).a)
        * (mvStateOf (fun _ => (0:ℚ)) !![(1:ℚ),0;0,-1]).A i
      + 1 * ((mvStateOf (fun _ => (0:ℚ)) !![(1:ℚ),0;0,-1]).B i
        - ((mvStateOf (fun _ => (0:ℚ)) !![(1:ℚ),0;0,-1]).b
            / (mvStateOf (fun _ => (0:ℚ)) !![(1:ℚ),0;0,-1]).a)
          * (mvStateOf (fun _ => (0:ℚ)) !![(1:ℚ),0;0,-1]).A i))) = 0
    simp only [mvStateOf, minv, Matrix.det_fin_two_of, Matrix.adjugate_fin_two_of]
    norm_num [Matrix.mulVec, Matrix.dotProduct, ones, Fin.sum_univ_two,
      Matrix.smul_apply]

/-- C5: the mean-variance optimizer raises on a singular covariance matrix
at construction time (before any portfolio is computed), and
`compute_portfolio` raises on τ < 0 before computing the weights. -/
theorem c5_validation_errors :
    (∀ (n : ℕ) (mu : Fin n → ℚ) (S : Matrix (Fin n) (Fin n) ℚ), S.det = 0 →
      mkMeanVariance mu S = .error .numericalError) ∧
    (∀ (n : ℕ) (st : MVState n) (tau : ℚ), tau < 0 →
      compute_portfolio st tau = .error .validationError) := by
  constructor
  · intro n mu S h
    rw [mkMeanVariance, if_pos h]
  · intro n st tau h
    rw [compute_portfolio, if_pos h]

/-- C5 witness: the singular matrix [[1,1],[1,1]] is rejected with the
numerical error, and τ = −1 is rejected with the validation error. -/
theorem c5_witness :
    mkMeanVariance (fun _ => (0:ℚ)) !![(1:ℚ),1;1,1] = .error .numericalError ∧
    compute_portfolio (mvStateOf (fun _ => (0:ℚ)) (1 : Matrix (Fin 2) (Fin 2) ℚ)) (-1) =
      .error .validationError :=
  ⟨c5_validation_errors.1 2 _ _ (by rw [Matrix.det_fin_two_of]; norm_num),
   c5_validation_errors.2 2 _ _ (by norm_num)⟩

/-! ## Black-Litterman blender (src/services/optimizers/black_litterman.py)

Embedding of `BlackLittermanOptimizer`.  The constructor selects the view
uncertainty matrix Ω (defaulting to `diag(diag(P·τΣ·Pᵗ))` when it is not
supplied) and computes the posterior returns, inverting
`P·τΣ·Pᵗ + Ω` (raising on a singular input). -/

/-- Default view-uncertainty matrix,
`np.diag(np.diag(P @ (tau * S) @ P.T))` in the source. -/
def defaultOmega {n k : ℕ} (S : Matrix (Fin n) (Fin n) ℚ)
    (P : Matrix (Fin k) (Fin n) ℚ) (tau : ℚ) : Matrix (Fin k) (Fin k) ℚ :=
  Matrix.diagonal (fun i => (P * (tau • S) * Pᵀ) i i)

/-- The Ω actually used by the constructor: the supplied one, or the
default when none is supplied. -/
def blOmegaOf {n k : ℕ} (S : Matrix (Fin n) (Fin n) ℚ)
    (P : Matrix (Fin k) (Fin n) ℚ) (tau : ℚ) :
    Option (Matrix (Fin k) (Fin k) ℚ) → Matrix (Fin k) (Fin k) ℚ
  | none => defaultOmega S P tau
  | some Om => Om

/-- Body of `BlackLittermanOptimizer._compute_bl_returns`:
`μ_bl = μ_eq + τΣ·Pᵗ·(P·τΣ·Pᵗ + Ω)⁻¹·(Q − P·μ_eq)`. -/
def compute_bl_returns {n k : ℕ} (mu_eq : Fin n → ℚ)
    (S : Matrix (Fin n) (Fin n) ℚ) (P : Matrix (Fin k) (Fin n) ℚ)
    (Q : Fin k → ℚ) (Omega : Matrix (Fin k) (Fin k) ℚ) (tau : ℚ) : Fin n → ℚ :=
  let tauS := tau • S
  let middle := minv (P * tauS * Pᵀ + Omega)
  mu_eq + (tauS * Pᵀ * middle) *ᵥ (Q - P *ᵥ mu_eq)

/-- State built by `BlackLittermanOptimizer.__init__`. -/
structure BLState (n k : ℕ) where
  mu_eq : Fin n → ℚ
  S : Matrix (Fin n) (Fin n) ℚ
  P : Matrix (Fin k) (Fin n) ℚ
  Q : Fin k → ℚ
  Omega : Matrix (Fin k) (Fin k) ℚ
  tau : ℚ
  mu_bl : Fin n → ℚ

/-- The state built by `BlackLittermanOptimizer.__init__` when the blend
matrix is invertible. -/
def blStateOf {n k : ℕ} (mu_eq : Fin n → ℚ) (S : Matrix (Fin n) (Fin n) ℚ)
    (P : Matrix (Fin k) (Fin n) ℚ) (Q : Fin k → ℚ)
    (OmOpt : Option (Matrix (Fin k) (Fin k) ℚ)) (tau : ℚ) : BLState n k :=
  { mu_eq := mu_eq
    S := S
    P := P
    Q := Q
    Omega := blOmegaOf S P tau OmOpt
    tau := tau
    mu_bl := compute_bl_returns mu_eq S P Q (blOmegaOf S P tau OmOpt) tau }

/-- Embedding of `BlackLittermanOptimizer.__init__`: picks Ω, then
computes the posterior returns; `np.linalg.inv` raises when
`P·τΣ·Pᵗ + Ω` is singular. -/
def blMk {n k : ℕ} (mu_eq : Fin n → ℚ) (S : Matrix (Fin n) (Fin n) ℚ)
    (P : Matrix (Fin k) (Fin n) ℚ) (Q : Fin k → ℚ)
    (OmOpt : Option (Matrix (Fin k) (Fin k) ℚ)) (tau : ℚ) :
    Except OptError (BLState n k) :=
  if (P * (tau • S) * Pᵀ + blOmegaOf S P tau OmOpt).det = 0 then
    .error .numericalError
  else .ok (blStateOf mu_eq S P Q OmOpt tau)

/-- Result record of `BlackLittermanOptimizer.compute_portfolio`. -/
structure BLPortfolio (n : ℕ) where
  w : Fin n → ℚ
  mu_p : ℚ
  sigma_p2 : ℚ
  rVal : Option ℚ

/-- Portfolio computed by `BlackLittermanOptimizer.compute_portfolio`
when Σ is invertible: `w = Σ⁻¹·μ_bl` normalized by
`weights /= np.sum(weights)` — the sum is never tested against zero, the
division is performed unconditionally. -/
def blPortfolioOf {n k : ℕ} (st : BLState n k) : BLPortfolio n :=
  let weights := minv st.S *ᵥ st.mu_bl
  let s := ∑ i, weights i
  let wn := fun i => weights i / s
  let mu_p := wn ⬝ᵥ st.mu_bl
  let sigma_p2 := wn ⬝ᵥ (st.S *ᵥ wn)
  ⟨wn, mu_p, sigma_p2, if sigma_p2 = 0 then none else some (mu_p / sigma_p2)⟩

/-- Embedding of `BlackLittermanOptimizer.compute_portfolio`: inverts Σ
(raising when singular), projects and normalizes. -/
def bl_compute_portfolio {n k : ℕ} (st : BLState n k) :
    Except OptError (BLPortfolio n) :=
  if st.S.det = 0 then .error .numericalError
  else .ok (blPortfolioOf st)

/-- C3: the Black-Litterman blend computes the posterior
`μ_bl = μ_eq + τΣ·Pᵗ·(P·τΣ·Pᵗ + Ω)⁻¹·(Q − P·μ_eq)` for every supplied Ω
making the blend matrix invertible, and when Ω is not supplied it uses
`Ω = diag(diag(P·τΣ·Pᵗ))`. -/
theorem c3_black_litterman_posterior {n k : ℕ} (mu_eq : Fin n → ℚ)
    (S : Matrix (Fin n) (Fin n) ℚ) (P : Matrix (Fin k) (Fin n) ℚ)
    (Q : Fin k → ℚ) (Omega : Matrix (Fin k) (Fin k) ℚ) (tau : ℚ)
    (hdet : (P * (tau • S) * Pᵀ + Omega).det ≠ 0) :
    blMk mu_eq S P Q (some Omega) tau =
      .ok ⟨mu_eq, S, P, Q, Omega, tau, compute_bl_returns mu_eq S P Q Omega tau⟩ ∧
    compute_bl_returns mu_eq S P Q Omega tau =
      mu_eq + ((tau • S) * Pᵀ * (P * (tau • S) * Pᵀ + Omega)⁻¹) *ᵥ
        (Q - P *ᵥ mu_eq) ∧
    blOmegaOf S P tau none = Matrix.diagonal (fun i => (P * (tau • S) * Pᵀ) i i) := by
  refine ⟨?_, ?_, rfl⟩
  · simp only [blMk, blOmegaOf]
    rw [if_neg hdet]
    rfl
  · simp only [compute_bl_returns]
    rw [minv_eq]


/-- C3 witness: one asset, one view, μ_eq = 7, Σ = [3], P = [2], Q = [5],
Ω = [1], τ = 1/2: the blend matrix is [7], which is invertible. -/
theorem c3_witness :
    blMk ![(7:ℚ)] !![(3:ℚ)] !![(2:ℚ)] ![(5:ℚ)] (some !![(1:ℚ)]) (1/2) =
      .ok ⟨![(7:ℚ)], !![(3:ℚ)], !![(2:ℚ)], ![(5:ℚ)], !![(1:ℚ)], 1/2,
        compute_bl_returns ![(7:ℚ)] !![(3:ℚ)] !![(2:ℚ)] ![(5:ℚ)] !![(1:ℚ)] (1/2)⟩ ∧
    compute_bl_returns ![(7:ℚ)] !![(3:ℚ)] !![(2:ℚ)] ![(5:ℚ)] !![(1:ℚ)] (1/2) =
      ![(7:ℚ)] + ((((1:ℚ)/2) • !![(3:ℚ)]) * !![(2:ℚ)]ᵀ *
        (!![(2:ℚ)] * (((1:ℚ)/2) • !![(3:ℚ)]) * !![(2:ℚ)]ᵀ + !![(1:ℚ)])⁻¹) *ᵥ
        (![(5:ℚ)] - !![(2:ℚ)] *ᵥ ![(7:ℚ)]) ∧
    blOmegaOf !![(3:ℚ)] !![(2:ℚ)] ((1:ℚ)/2) none =
      Matrix.diagonal (fun i => (!![(2:ℚ)] * (((1:ℚ)/2) • !![(3:ℚ)]) * !![(2:ℚ)]ᵀ) i i) :=
  c3_black_litterman_posterior _ _ _ _ _ _ (by
    rw [Matrix.det_fin_one]
    simp [Matrix.mul_apply, Matrix.transpose_apply, Fin.sum_univ_one,
      Matrix.smul_apply, Matrix.vecHead, Matrix.cons_val_zero, Matrix.of_apply]
    norm_num)

/-- C7: with Ω = 0 supplied and a fully-specified view (square invertible
pick matrix P, invertible Σ, nonzero τ), the posterior satisfies
`P·μ_bl = Q` exactly. -/
theorem c7_omega_zero_forces_views {n : ℕ} (mu_eq : Fin n → ℚ)
    (S : Matrix (Fin n) (Fin n) ℚ) (P : Matrix (Fin n) (Fin n) ℚ)
    (Q : Fin n → ℚ) (tau : ℚ)
    (hP : P.det ≠ 0) (hS : S.det ≠ 0) (htau : tau ≠ 0) :
    blMk mu_eq S P Q (some 0) tau =
      .ok ⟨mu_eq, S, P, Q, 0, tau, compute_bl_returns mu_eq S P Q 0 tau⟩ ∧
    P *ᵥ compute_bl_returns mu_eq S P Q 0 tau = Q := by
  have hdetM : (P * (tau • S) * Pᵀ).det ≠ 0 := by
    rw [Matrix.det_mul, Matrix.det_mul, Matrix.det_transpose, Matrix.det_smul]
    exact mul_ne_zero (mul_ne_zero hP (mul_ne_zero (pow_ne_zero _ htau) hS)) hP
  constructor
  · simp only [blMk, blOmegaOf]
    rw [if_neg (by rw [add_zero]; exact hdetM)]
    rfl
  · simp only [compute_bl_returns]
    rw [add_zero, minv_eq, Matrix.mulVec_add, Matrix.mulVec_mulVec,
      ← Matrix.mul_assoc, ← Matrix.mul_assoc,
      Matrix.mul_nonsing_inv _ (isUnit_iff_ne_zero.2 hdetM),
      Matrix.one_mulVec]
    exact add_sub_cancel _ _

/-- C7 witness: one asset, μ_eq = 7, Σ = [3], P = [2], Q = [5], τ = 1/2,
Ω = 0: the posterior satisfies P·μ_bl = Q. -/
theorem c7_witness :
    blMk ![(7:ℚ)] !![(3:ℚ)] !![(2:ℚ)] ![(5:ℚ)] (some 0) (1/2) =
      .ok ⟨![(7:ℚ)], !![(3:ℚ)], !![(2:ℚ)], ![(5:ℚ)], 0, 1/2,
        compute_bl_returns ![(7:ℚ)] !![(3:ℚ)] !![(2:ℚ)] ![(5:ℚ)] 0 (1/2)⟩ ∧
    !![(2:ℚ)] *ᵥ compute_bl_returns ![(7:ℚ)] !![(3:ℚ)] !![(2:ℚ)] ![(5:ℚ)] 0 (1/2) =
      ![(5:ℚ)] :=
  c7_omega_zero_forces_views _ _ _ _ _
    (by rw [Matrix.det_fin_one_of]; norm_num)
    (by rw [Matrix.det_fin_one_of]; norm_num)
    (by norm_num)

/-- Equilibrium returns (1, −1) on two assets: with Σ = I and views that
match the equilibrium, the projected weights `Σ⁻¹·μ_bl = (1, −1)` sum to
zero. -/
def blMuEqX : Fin 2 → ℚ := ![1, -1]

/-- The Black-Litterman state built from μ_eq = (1, −1), Σ = I, P = I,
Q = (1, −1), Ω defaulted, τ = 1/20. -/
def blStX : BLState 2 2 :=
  blStateOf blMuEqX (1 : Matrix (Fin 2) (Fin 2) ℚ) 1 blMuEqX none (1/20)

lemma blStX_mu_bl : blStX.mu_bl = blMuEqX := by
  show compute_bl_returns blMuEqX (1 : Matrix (Fin 2) (Fin 2) ℚ) 1 blMuEqX _ (1/20)
    = blMuEqX
  simp only [compute_bl_returns]
  rw [Matrix.one_mulVec, sub_self, Matrix.mulVec_zero, add_zero]

lemma blX_middle :
    ((1 : Matrix (Fin 2) (Fin 2) ℚ) * ((1/20 : ℚ) • 1) * (1 : Matrix (Fin 2) (Fin 2) ℚ)ᵀ +
      blOmegaOf (1 : Matrix (Fin 2) (Fin 2) ℚ) 1 (1/20) none) =
    Matrix.diagonal (fun _ => (1/10 : ℚ)) := by
  rw [Matrix.transpose_one, Matrix.mul_one, Matrix.one_mul]
  show ((1/20 : ℚ) • 1 + Matrix.diagonal
    (fun i => ((1 : Matrix (Fin 2) (Fin 2) ℚ) * ((1/20 : ℚ) • 1) *
      (1 : Matrix (Fin 2) (Fin 2) ℚ)ᵀ) i i)) = _
  rw [Matrix.transpose_one, Matrix.mul_one, Matrix.one_mul,
    Matrix.smul_one_eq_diagonal]
  simp only [Matrix.diagonal_apply_eq]
  rw [Matrix.diagonal_add]
  funext i
  norm_num

lemma blX_sum_zero : (∑ i, (minv blStX.S *ᵥ blStX.mu_bl) i) = 0 := by
  rw [blStX_mu_bl]
  show (∑ i, (minv (1 : Matrix (Fin 2) (Fin 2) ℚ) *ᵥ blMuEqX) i) = 0
  rw [minv_eq, inv_one, Matrix.one_mulVec]
  simp [blMuEqX, Fin.sum_univ_two]

/-- C10: the Black-Litterman `compute_portfolio` divides by the sum of the
projected weights `Σ⁻¹·μ_bl` without testing it for zero.  For every state
with invertible Σ and nonzero projected sum the returned weights sum to 1
exactly; and there is a concrete input (μ_eq = (1,−1), Σ = I, P = I,
Q = (1,−1), default Ω, τ = 1/20) on which the projected sum is zero and the
operation still returns successfully — performing the division by zero
(numpy: non-finite weights) instead of raising an error, so the returned
weights sum to 0, not 1. -/
theorem c10_bl_unchecked_normalization :
    (∀ (n k : ℕ) (st : BLState n k), st.S.det ≠ 0 →
      (∑ i, (minv st.S *ᵥ st.mu_bl) i) ≠ 0 →
      bl_compute_portfolio st = .ok (blPortfolioOf st) ∧
      ∑ i, (blPortfolioOf st).w i = 1) ∧
    (blMk blMuEqX (1 : Matrix (Fin 2) (Fin 2) ℚ) 1 blMuEqX none (1/20) = .ok blStX ∧
      (∑ i, (minv blStX.S *ᵥ blStX.mu_bl) i) = 0 ∧
      bl_compute_portfolio blStX = .ok (blPortfolioOf blStX) ∧
      ∑ i, (blPortfolioOf blStX).w i = 0) := by
  constructor
  · intro n k st hdet hs
    refine ⟨by rw [bl_compute_portfolio, if_neg hdet], ?_⟩
    show (∑ i, (minv st.S *ᵥ st.mu_bl) i / (∑ j, (minv st.S *ᵥ st.mu_bl) j)) = 1
    rw [← Finset.sum_div]
    exact div_self hs
  · refine ⟨?_, blX_sum_zero, ?_, ?_⟩
    · rw [blMk, if_neg (by rw [blX_middle, Matrix.det_diagonal]; norm_num)]
      rfl
    · rw [bl_compute_portfolio, if_neg]
      show (1 : Matrix (Fin 2) (Fin 2) ℚ).det ≠ 0
      simp
    · show (∑ i, (minv blStX.S *ᵥ blStX.mu_bl) i /
        (∑ j, (minv blStX.S *ᵥ blStX.mu_bl) j)) = 0
      rw [blX_sum_zero]
      simp

/-- A Black-Litterman state with Σ = I and posterior (1, 1), whose
projected weight sum is 2 ≠ 0. -/
def blGoodSt : BLState 2 2 :=
  { mu_eq := ![1, 1]
    S := 1
    P := 1
    Q := ![1, 1]
    Omega := 1
    tau := 1/20
    mu_bl := ![1, 1] }

/-- C10 witness: on `blGoodSt` the normalized Black-Litterman weights sum
to exactly 1. -/
theorem c10_witness :
    bl_compute_portfolio blGoodSt = .ok (blPortfolioOf blGoodSt) ∧
    ∑ i, (blPortfolioOf blGoodSt).w i = 1 :=
  c10_bl_unchecked_normalization.1 2 2 blGoodSt (by simp [blGoodSt])
    (by
      show (∑ i, (minv (1 : Matrix (Fin 2) (Fin 2) ℚ) *ᵥ ![(1:ℚ), 1]) i) ≠ 0
      rw [minv_eq, inv_one, Matrix.one_mulVec]
      simp [Fin.sum_univ_two])

/-! ## Maximum Sharpe ratio optimizer
(src/services/optimizers/maximum_sharpe_ratio.py)

`compute_portfolio` hands the negated Sharpe objective to
`scipy.optimize.minimize` and, on solver success, recomputes
`μ_p = w·μ`, `σ_p = √(wᵗΣw)` and `sharpe = (μ_p − rf)/σ_p` for the
returned weights.  Neither the objective nor the final division tests the
volatility against zero; the only raise in the function is the solver
convergence failure. -/

/-- Result record of `MaximumSharpeRatioOptimizer.compute_portfolio`:
weights, expected return and variance `σ_p² = wᵗΣw`.  The Sharpe value
returned alongside is `(μ_p − rf)/√σ_p²`, a division performed with no
guard on a zero denominator. -/
structure MSRResult (n : ℕ) where
  w : Fin n → ℚ
  mu_p : ℚ
  sigma_p2 : ℚ

/-- Portfolio variance `wᵗΣw`; the code divides by its square root. -/
def portfolio_sigma2 {n : ℕ} (S : Matrix (Fin n) (Fin n) ℚ) (w : Fin n → ℚ) : ℚ :=
  w ⬝ᵥ (S *ᵥ w)

/-- Embedding of `MaximumSharpeRatioOptimizer.compute_portfolio`.  The
external `scipy.optimize.minimize` call is an oracle argument: `none`
models solver failure (the function's only raise, "failed to converge"),
`some w` a solver-returned weight vector.  There is no error branch for a
zero or near-zero volatility. -/
def msr_compute_portfolio {n : ℕ} (mu : Fin n → ℚ) (S : Matrix (Fin n) (Fin n) ℚ)
    (solverResult : Option (Fin n → ℚ)) : Except OptError (MSRResult n) :=
  match solverResult with
  | none => .error .convergenceError
  | some w => .ok ⟨w, w ⬝ᵥ mu, portfolio_sigma2 S w⟩

/-- Mean vector of the zero-volatility failing input for C4. -/
def msrMuX : Fin 2 → ℚ := ![1/10, 1/5]

/-- Zero covariance matrix: every candidate portfolio has volatility 0. -/
def msrSZero : Matrix (Fin 2) (Fin 2) ℚ := 0

/-- C4 (code evaluation at the failing input): with Σ = 0 every weight
vector the solver can return has `wᵗΣw = 0`, and `compute_portfolio`
returns successfully with zero variance — the Sharpe value is then a
division by `√0 = 0` (numpy: Inf/NaN) and no NumericalError is raised,
contradicting the claim. -/
theorem c4_no_zero_volatility_guard (w : Fin 2 → ℚ) :
    msr_compute_portfolio msrMuX msrSZero (some w) =
      .ok ⟨w, w ⬝ᵥ msrMuX, 0⟩ := by
  simp only [msr_compute_portfolio, portfolio_sigma2, msrSZero]
  rw [Matrix.zero_mulVec, Matrix.dotProduct_zero]

/-! ## Risk calculator (src/services/risk_calculator.py)

Embedding of `compute_max_drawdown`: `rolling_max = prices.cummax()`,
`drawdowns = (prices - rolling_max) / rolling_max`, `drawdowns.min()`. -/

/-- Running maximum continuing from an already-seen maximum `m`
(`pandas.Series.cummax`). -/
def cummaxFrom (m : ℚ) : List ℚ → List ℚ
  | [] => []
  | x :: xs => max m x :: cummaxFrom (max m x) xs

/-- `prices.cummax()` on the whole series. -/
def cummax : List ℚ → List ℚ
  | [] => []
  | x :: xs => cummaxFrom x (x :: xs)

/-- Embedding of `compute_max_drawdown`: the minimum of
`(x_t − running_max)/running_max` (`none` on an empty series, where
pandas yields NaN). -/
def compute_max_drawdown (prices : List ℚ) : Option ℚ :=
  (List.zipWith (fun x r => (x - r) / r) prices (cummax prices)).min?

lemma drawdown_elem_bounds :
    ∀ (l : List ℚ) (m : ℚ), 0 < m → (∀ x ∈ l, 0 < x) →
      ∀ d ∈ List.zipWith (fun x r => (x - r) / r) l (cummaxFrom m l),
        -1 < d ∧ d ≤ 0 := by
  intro l
  induction l with
  | nil => intro m _ _ d hd; simp at hd
  | cons x xs ih =>
    intro m hm hl d hd
    have hx : 0 < x := hl x (List.mem_cons_self x xs)
    have hmx : 0 < max m x := lt_max_of_lt_left hm
    rw [cummaxFrom, List.zipWith_cons_cons] at hd
    rcases List.mem_cons.1 hd with h | h
    · subst h
      constructor
      · rw [lt_div_iff₀ hmx]
        linarith
      · have hxm : x - max m x ≤ 0 := by
          have := le_max_right m x
          linarith
        exact div_nonpos_iff.2 (Or.inr ⟨hxm, hmx.le⟩)
    · exact ih (max m x) hmx (fun y hy => hl y (List.mem_cons_of_mem _ hy)) d h

lemma foldl_min_bounds (lo hi : ℚ) :
    ∀ (xs : List ℚ) (x : ℚ), lo < x → x ≤ hi →
      (∀ y ∈ xs, lo < y ∧ y ≤ hi) →
      lo < xs.foldl min x ∧ xs.foldl min x ≤ hi := by
  intro xs
  induction xs with
  | nil => intro x h1 h2 _; exact ⟨h1, h2⟩
  | cons y ys ih =>
    intro x h1 h2 hall
    rw [List.foldl_cons]
    exact ih (min x y) (lt_min h1 (hall y (List.mem_cons_self y ys)).1)
      (le_trans (min_le_left _ _) h2)
      (fun z hz => hall z (List.mem_cons_of_mem _ hz))

/-- C8 (amended): for every non-empty series of positive prices,
`compute_max_drawdown` returns the minimum of
`(x_t − running_max)/running_max` and that value lies in [−1, 0].
(For series containing non-positive prices the bound fails, see the
counterexample.) -/
theorem c8_max_drawdown_bounds (prices : List ℚ) (hne : prices ≠ [])
    (hpos : ∀ x ∈ prices, 0 < x) :
    ∃ d, compute_max_drawdown prices = some d ∧
      (List.zipWith (fun x r => (x - r) / r) prices (cummax prices)).min? =
        some d ∧ -1 ≤ d ∧ d ≤ 0 := by
  cases prices with
  | nil => exact absurd rfl hne
  | cons x xs =>
    have hx : 0 < x := hpos x (List.mem_cons_self x xs)
    have hb := drawdown_elem_bounds (x :: xs) x hx hpos
    rcases hb ((x - max x x) / max x x) (by
      rw [cummaxFrom, List.zipWith_cons_cons]
      exact List.mem_cons_self _ _) with ⟨hh1, hh2⟩
    have hball : ∀ y ∈ List.zipWith (fun x r => (x - r) / r) xs
        (cummaxFrom (max x x) xs), -1 < y ∧ y ≤ 0 := by
      intro y hy
      apply hb
      rw [cummaxFrom, List.zipWith_cons_cons]
      exact List.mem_cons_of_mem _ hy
    rcases foldl_min_bounds (-1) 0 _ _ hh1 hh2 hball with ⟨hf1, hf2⟩
    refine ⟨List.foldl min ((x - max x x) / max x x)
      (List.zipWith (fun x r => (x - r) / r) xs (cummaxFrom (max x x) xs)),
      ?_, ?_, le_of_lt hf1, hf2⟩
    · show (List.zipWith (fun x r => (x - r) / r) (x :: xs)
        (cummaxFrom x (x :: xs))).min? = _
      rw [cummaxFrom, List.zipWith_cons_cons, List.min?_cons']
    · show (List.zipWith (fun x r => (x - r) / r) (x :: xs)
        (cummaxFrom x (x :: xs))).min? = _
      rw [cummaxFrom, List.zipWith_cons_cons, List.min?_cons']

/-- C8 witness: prices (1, 2, 1) give max drawdown −1/2 ∈ [−1, 0]. -/
theorem c8_witness :
    ∃ d, compute_max_drawdown [1, 2, 1] = some d ∧
      (List.zipWith (fun x r => (x - r) / r) [1, 2, 1]
        (cummax [1, 2, 1])).min? = some d ∧ -1 ≤ d ∧ d ≤ 0 :=
  c8_max_drawdown_bounds [1, 2, 1] (by simp)
    (by
      intro x hx
      rcases List.mem_cons.1 hx with rfl | hx
      · norm_num
      rcases List.mem_cons.1 hx with rfl | hx
      · norm_num
      rcases List.mem_cons.1 hx with rfl | hx
      · norm_num
      · simp at hx)

/-- C8 counterexample: the series (1, −2) is non-empty, and
`compute_max_drawdown` returns −3, which is outside [−1, 0]; the claimed
bound fails for series that are not positive. -/
theorem c8_counterexample :
    compute_max_drawdown [1, -2] = some (-3) ∧ ((-3 : ℚ) < -1) := by
  constructor
  · rw [compute_max_drawdown]
    show (List.zipWith (fun x r => (x - r) / r) [(1:ℚ), -2]
      (cummaxFrom 1 [(1:ℚ), -2])).min? = some (-3)
    rw [cummaxFrom, cummaxFrom, cummaxFrom]
    rw [List.zipWith_cons_cons, List.zipWith_cons_cons, List.zipWith_nil_right,
      List.min?_cons', List.foldl_cons, List.foldl_nil]
    have h1 : max (1:ℚ) 1 = 1 := max_self 1
    rw [h1]
    have h2 : max (1:ℚ) (-2) = 1 := max_eq_left (by norm_num)
    rw [h2]
    norm_num [min_def]
  · norm_num

/-! ## Risk parity optimizer (src/services/optimizers/risk_parity.py)

`_risk_contribution` divides `w_i·(Σw)_i` by the portfolio volatility
`np.sqrt(wᵗΣw)`; the square root is modelled as an oracle value `vol`
constrained in the theorems by `vol·vol = wᵗΣw` and `0 < vol`.
`_objective` is `Σ(rc_i − mean(rc))²` and is handed to the external
solver; the claim is settled against the exact minimizers of this
objective over the feasible set (bounds `[0,1]`, `Σw = 1`). -/

/-- Embedding of `RiskParityOptimizer._risk_contribution`:
`weights * (S @ weights) / portfolio_vol`, with the volatility given as
the oracle argument `vol`. -/
def rp_risk_contribution {n : ℕ} (S : Matrix (Fin n) (Fin n) ℚ)
    (w : Fin n → ℚ) (vol : ℚ) : Fin n → ℚ :=
  fun i => w i * (S *ᵥ w) i / vol

/-- Embedding of `RiskParityOptimizer._objective`:
`np.sum((rc - np.mean(rc))**2)`. -/
def rp_objective {n : ℕ} (S : Matrix (Fin n) (Fin n) ℚ)
    (w : Fin n → ℚ) (vol : ℚ) : ℚ :=
  ∑ i, (rp_risk_contribution S w vol i
    - (∑ j, rp_risk_contribution S w vol j) / (n : ℚ)) ^ 2

/-- Diagonal covariance matrix `diag(σ_1², …, σ_N²)`. -/
def rpDiag {n : ℕ} (sigma : Fin n → ℚ) : Matrix (Fin n) (Fin n) ℚ :=
  Matrix.diagonal (fun i => sigma i ^ 2)

/-- The inverse-volatility weights `w_i = σ_i⁻¹ / Σ_j σ_j⁻¹`. -/
def invVolWeights {n : ℕ} (sigma : Fin n → ℚ) : Fin n → ℚ :=
  fun i => (sigma i)⁻¹ / (∑ j, (sigma j)⁻¹)

lemma sq_eq_of_nonneg {a b : ℚ} (ha : 0 ≤ a) (hb : 0 ≤ b)
    (h : a ^ 2 = b ^ 2) : a = b := by
  have h2 : (a - b) * (a + b) = 0 := by ring_nf; linarith
  rcases mul_eq_zero.1 h2 with h3 | h3
  · linarith
  · linarith

/-- C6: for a diagonal covariance matrix diag(σ₁², …, σ_N²) with all
σ_i > 0, the inverse-volatility weights `w_i ∝ 1/σ_i` are feasible
(nonnegative, summing to 1) and are exactly the zero set of the
risk-parity objective among feasible weights: the objective is
nonnegative everywhere, and for every feasible `w` it vanishes iff
`w = invVolWeights σ` — so the solver's global minimizer is exactly the
inverse-volatility portfolio. -/
theorem c6_risk_parity_diagonal {n : ℕ} (hn : 0 < n) (sigma : Fin n → ℚ)
    (hs : ∀ i, 0 < sigma i) :
    (∑ i, invVolWeights sigma i = 1) ∧
    (∀ i, 0 ≤ invVolWeights sigma i) ∧
    (∀ (w : Fin n → ℚ) (vol : ℚ), 0 ≤ rp_objective (rpDiag sigma) w vol) ∧
    (∀ (w : Fin n → ℚ) (vol : ℚ), (∀ i, 0 ≤ w i) → (∑ i, w i) = 1 →
      vol * vol = w ⬝ᵥ (rpDiag sigma *ᵥ w) → 0 < vol →
      (rp_objective (rpDiag sigma) w vol = 0 ↔ w = invVolWeights sigma)) := by
  haveI : Nonempty (Fin n) := ⟨⟨0, hn⟩⟩
  have hT : 0 < ∑ j, (sigma j)⁻¹ :=
    Finset.sum_pos (fun i _ => inv_pos.2 (hs i)) Finset.univ_nonempty
  refine ⟨?_, ?_, ?_, ?_⟩
  · simp only [invVolWeights]
    rw [← Finset.sum_div, div_self hT.ne']
  · intro i
    exact div_nonneg (inv_nonneg.2 (hs i).le) hT.le
  · intro w vol
    exact Finset.sum_nonneg fun i _ => sq_nonneg _
  · intro w vol hw hsum hvol2 hvol
    constructor
    · intro h0
      have heach : ∀ i : Fin n, rp_risk_contribution (rpDiag sigma) w vol i
          - (∑ j, rp_risk_contribution (rpDiag sigma) w vol j) / (n : ℚ) = 0 := by
        intro i
        have h := (Finset.sum_eq_zero_iff_of_nonneg
          (fun i _ => sq_nonneg (rp_risk_contribution (rpDiag sigma) w vol i
            - (∑ j, rp_risk_contribution (rpDiag sigma) w vol j) / (n : ℚ)))).1
          h0 i (Finset.mem_univ i)
        exact (pow_eq_zero_iff two_ne_zero).1 h
      have hrc_eq : ∀ i j, rp_risk_contribution (rpDiag sigma) w vol i =
          rp_risk_contribution (rpDiag sigma) w vol j := by
        intro i j
        have hi := heach i
        have hj := heach j
        linarith
      have hm : ∀ i j, sigma i * w i = sigma j * w j := by
        intro i j
        have h := hrc_eq i j
        simp only [rp_risk_contribution, rpDiag, Matrix.mulVec_diagonal] at h
        rw [div_eq_div_iff hvol.ne' hvol.ne'] at h
        have h2 : w i * (sigma i ^ 2 * w i) = w j * (sigma j ^ 2 * w j) :=
          mul_right_cancel₀ hvol.ne' h
        apply sq_eq_of_nonneg (mul_nonneg (hs i).le (hw i))
          (mul_nonneg (hs j).le (hw j))
        ring_nf
        ring_nf at h2
        linarith
      have hwi : ∀ i, w i = (sigma i)⁻¹ * (sigma ⟨0, hn⟩ * w ⟨0, hn⟩) := by
        intro i
        have h := hm i ⟨0, hn⟩
        field_simp [(hs i).ne']
        linear_combination h
      have hc : (∑ j, (sigma j)⁻¹) * (sigma ⟨0, hn⟩ * w ⟨0, hn⟩) = 1 := by
        calc (∑ j, (sigma j)⁻¹) * (sigma ⟨0, hn⟩ * w ⟨0, hn⟩)
            = ∑ j, (sigma j)⁻¹ * (sigma ⟨0, hn⟩ * w ⟨0, hn⟩) :=
              Finset.sum_mul _ _ _
          _ = ∑ j, w j := Finset.sum_congr rfl fun j _ => (hwi j).symm
          _ = 1 := hsum
      have hcT : sigma ⟨0, hn⟩ * w ⟨0, hn⟩ = (∑ j, (sigma j)⁻¹)⁻¹ :=
        eq_inv_of_mul_eq_one_right hc
      funext i
      rw [hwi i, invVolWeights, hcT, div_eq_mul_inv]
    · intro heq
      subst heq
      have hsw : ∀ i, sigma i * invVolWeights sigma i = (∑ j, (sigma j)⁻¹)⁻¹ := by
        intro i
        rw [invVolWeights]
        rw [← mul_div_assoc, mul_inv_cancel₀ (hs i).ne', one_div]
      have hnum : ∀ i, invVolWeights sigma i * (sigma i ^ 2 * invVolWeights sigma i)
          = ((∑ j, (sigma j)⁻¹)⁻¹) ^ 2 := by
        intro i
        linear_combination
          (sigma i * invVolWeights sigma i + (∑ j, (sigma j)⁻¹)⁻¹) * hsw i
      have hrc : ∀ i, rp_risk_contribution (rpDiag sigma) (invVolWeights sigma) vol i
          = ((∑ j, (sigma j)⁻¹)⁻¹) ^ 2 / vol := by
        intro i
        simp only [rp_risk_contribution, rpDiag, Matrix.mulVec_diagonal]
        rw [hnum i]
      have hinner : (∑ _x : Fin n, ((∑ j, (sigma j)⁻¹)⁻¹) ^ 2 / vol) =
          (n : ℚ) * (((∑ j, (sigma j)⁻¹)⁻¹) ^ 2 / vol) := by
        rw [Finset.sum_const, Finset.card_univ, Fintype.card_fin, nsmul_eq_mul]
      simp only [rp_objective, hrc, hinner]
      rw [mul_div_cancel_left₀ _ (by exact_mod_cast hn.ne' : (n : ℚ) ≠ 0)]
      simp

/-- Volatility triple (0.2, 0.3, 0.1) of the specification's diagonal test
oracle diag(0.04, 0.09, 0.01). -/
def sig3 : Fin 3 → ℚ := ![1/5, 3/10, 1/10]

/-- Unit volatilities on four assets (a case whose inverse-volatility
portfolio has rational volatility 1/2). -/
def sig4 : Fin 4 → ℚ := fun _ => 1

/-- The corner portfolio (1, 0, 0), feasible but not risk-parity. -/
def unitW3 : Fin 3 → ℚ := ![1, 0, 0]

/-- The equal-weight portfolio on four assets. -/
def eqW4 : Fin 4 → ℚ := fun _ => 1/4

/-- C6 witness: for σ = (0.2, 0.3, 0.1) the inverse-volatility weights sum
to 1 and they are [5, 10/3, 10] normalized = (3/11, 2/11, 6/11); the
feasible non-parity portfolio (1,0,0) has nonzero objective; and on the
unit-volatility four-asset case the equal weights (= inverse volatility)
make the objective exactly 0. -/
theorem c6_witness :
    (∑ i, invVolWeights sig3 i = 1) ∧
    invVolWeights sig3 = ![3/11, 2/11, 6/11] ∧
    rp_objective (rpDiag sig3) unitW3 (1/5) ≠ 0 ∧
    rp_objective (rpDiag sig4) eqW4 (1/2) = 0 := by
  have h3 := c6_risk_parity_diagonal (by norm_num) sig3
    (by intro i; fin_cases i <;> norm_num [sig3])
  have h4 := c6_risk_parity_diagonal (by norm_num) sig4
    (fun i => by norm_num [sig4])
  have hiv : invVolWeights sig3 = ![3/11, 2/11, 6/11] := by
    funext i
    fin_cases i <;> norm_num [invVolWeights, sig3, Fin.sum_univ_three]
  refine ⟨h3.1, hiv, ?_, ?_⟩
  · have hiff := h3.2.2.2 unitW3 (1/5)
      (by intro i; fin_cases i <;> norm_num [unitW3])
      (by norm_num [unitW3, Fin.sum_univ_three])
      (by
        simp [Matrix.dotProduct, Matrix.mulVec_diagonal, Fin.sum_univ_three,
          unitW3, sig3, rpDiag]
        norm_num)
      (by norm_num)
    intro h0
    have hweq := hiff.1 h0
    rw [hiv] at hweq
    have h1 := congrFun hweq 1
    norm_num [unitW3] at h1
  · have hiff := h4.2.2.2 eqW4 (1/2) (fun i => by norm_num [eqW4])
      (by norm_num [eqW4, Fin.sum_univ_four])
      (by
        simp [Matrix.dotProduct, Matrix.mulVec_diagonal, Fin.sum_univ_four,
          eqW4, sig4, rpDiag]
        norm_num)
      (by norm_num)
    exact hiff.2 (by
      funext i
      norm_num [eqW4, invVolWeights, sig4, Fin.sum_univ_four])

/-! ## Mean-variance tau sweep
(`Mean_variance_optimizer.find_optimal_portfolio`)

The sweep validates the tau range, evaluates `compute_portfolio` on
`np.linspace` samples (all ≥ 0, so the validated body `mvCore` applies),
and takes `np.argmax` of the return/variance ratios.  With
`enforce_positive_weights=True` it restricts the argmax to the sampled
portfolios whose weights are all nonnegative — but when no sample
qualifies it only prints a warning and falls back to the unconstrained
argmax. -/

/-- `np.linspace(lo, hi, num)`; for `num = 1` numpy returns `[lo]`, which
the rational convention `x/0 = 0` below reproduces. -/
def linspace (lo hi : ℚ) (num : ℕ) : List ℚ :=
  (List.range num).map (fun (i : ℕ) => lo + (hi - lo) * (i : ℚ) / ((num : ℚ) - 1))

/-- The Python check `all(result[0] >= 0)` on a weight vector. -/
def allNonneg {n : ℕ} (w : Fin n → ℚ) : Bool :=
  decide (∀ i, 0 ≤ w i)

/-- Strict comparison of ratio values, `none` standing for `np.inf`:
`ratioLtB b x` is true when `x` is strictly greater than `b`. -/
def ratioLtB : Option ℚ → Option ℚ → Bool
  | none, _ => false
  | some _, none => true
  | some a, some c => decide (a < c)

/-- Running `np.argmax`: keeps the first index attaining the maximum,
replacing the current best only on strict improvement. -/
def argmaxAux : List (Option ℚ) → ℕ → ℕ → Option ℚ → ℕ
  | [], _, best, _ => best
  | x :: xs, i, best, bv =>
    if ratioLtB bv x then argmaxAux xs (i + 1) i x
    else argmaxAux xs (i + 1) best bv

/-- `np.argmax` over a list of ratio values (0 on the empty list, where
numpy raises instead; the sweep never calls it on an empty list for
`num_points ≥ 1`). -/
def argmaxIdx : List (Option ℚ) → ℕ
  | [] => 0
  | x :: xs => argmaxAux xs 1 0 x

/-- Embedding of `Mean_variance_optimizer.find_optimal_portfolio`. -/
def find_optimal_portfolio {n : ℕ} (st : MVState n) (lo hi : ℚ) (num : ℕ)
    (enforce : Bool) : Except OptError (ℚ × MVResult n) :=
  if lo < 0 ∨ hi < lo then .error .validationError
  else
    let taus := linspace lo hi num
    let results := taus.map (mvCore st)
    let ratios := results.map (fun r => r.rVal)
    let idx :=
      cond enforce
        (let valid := (results.enum.filter (fun p => allNonneg p.2.w)).map
          (fun p => p.1)
        if valid = [] then argmaxIdx ratios
        else valid.getD (argmaxIdx (valid.map (fun i => ratios.getD i none))) 0)
        (argmaxIdx ratios)
    .ok (taus.getD idx 0, results.getD idx (mvCore st 0))

/-- C9 (amended): when the positivity filter matches no sampled portfolio,
the sweep with `enforce_positive_weights=True` returns exactly what the
unconstrained sweep returns (after printing a warning) — a silent
fallback, not an error. -/
theorem c9_sweep_silent_fallback {n : ℕ} (st : MVState n) (lo hi : ℚ)
    (num : ℕ) (hrange : ¬(lo < 0 ∨ hi < lo))
    (hnone : ((linspace lo hi num).map (mvCore st)).enum.filter
        (fun p => allNonneg p.2.w) = []) :
    find_optimal_portfolio st lo hi num true =
      find_optimal_portfolio st lo hi num false := by
  simp only [find_optimal_portfolio, if_neg hrange, Bool.cond_true,
    Bool.cond_false]
  rw [hnone]
  simp

/-- Mean vector (1, 1) of the input on which no sampled τ gives
nonnegative weights. -/
def mu9 : Fin 2 → ℚ := ![1, 1]

/-- Covariance matrix [[1,2],[2,9]]: its minimum-variance weights are
(7/6, −1/6), and with μ = (1, 1) the analytic weights equal (7/6, −1/6)
for every τ. -/
def S9 : Matrix (Fin 2) (Fin 2) ℚ := !![1, 2; 2, 9]

/-- The optimizer state for (μ, Σ) = (mu9, S9). -/
def st9 : MVState 2 := mvStateOf mu9 S9

/-- The analytic portfolio produced at every sampled τ for (mu9, S9). -/
def res9 : MVResult 2 := ⟨![7/6, -1/6], 1, 5/6, some (6/5)⟩

lemma minv_S9 : minv S9 = !![9/5, -2/5; -2/5, 1/5] := by
  simp only [S9, minv, Matrix.det_fin_two_of, Matrix.adjugate_fin_two_of]
  norm_num

lemma hA9 : minv S9 *ᵥ ones 2 = ![7/5, -1/5] := by
  rw [minv_S9]
  funext i
  fin_cases i <;>
    simp [Matrix.mulVec, Matrix.dotProduct, ones, Fin.sum_univ_two] <;>
    norm_num

lemma hB9 : minv S9 *ᵥ mu9 = ![7/5, -1/5] := by
  rw [minv_S9]
  funext i
  fin_cases i <;>
    simp [Matrix.mulVec, Matrix.dotProduct, mu9, Fin.sum_univ_two] <;>
    norm_num

lemma ha9 : ones 2 ⬝ᵥ (minv S9 *ᵥ ones 2) = 6/5 := by
  rw [hA9, ones_dot, Fin.sum_univ_two]
  norm_num

lemma hb9 : ones 2 ⬝ᵥ (minv S9 *ᵥ mu9) = 6/5 := by
  rw [hB9, ones_dot, Fin.sum_univ_two]
  norm_num

lemma mv9_w (t : ℚ) :
    (fun i => (1 / st9.a) * st9.A i + t * (st9.B i - (st9.b / st9.a) * st9.A i)) =
    ![(7:ℚ)/6, -1/6] := by
  funext i
  show (1 / (ones 2 ⬝ᵥ (minv S9 *ᵥ ones 2))) * (minv S9 *ᵥ ones 2) i
    + t * ((minv S9 *ᵥ mu9) i
      - ((ones 2 ⬝ᵥ (minv S9 *ᵥ mu9)) / (ones 2 ⬝ᵥ (minv S9 *ᵥ ones 2)))
        * (minv S9 *ᵥ ones 2) i) = ![(7:ℚ)/6, -1/6] i
  rw [ha9, hb9, hA9, hB9]
  fin_cases i <;> norm_num

lemma mv9_core (t : ℚ) : mvCore st9 t = res9 := by
  simp only [mvCore]
  rw [mv9_w t]
  have hmu : ![(7:ℚ)/6, -1/6] ⬝ᵥ st9.mu = 1 := by
    show ![(7:ℚ)/6, -1/6] ⬝ᵥ mu9 = 1
    rw [Matrix.dotProduct, Fin.sum_univ_two]
    norm_num [mu9]
  have hsig : ![(7:ℚ)/6, -1/6] ⬝ᵥ (st9.S *ᵥ ![(7:ℚ)/6, -1/6]) = 5/6 := by
    show ![(7:ℚ)/6, -1/6] ⬝ᵥ (S9 *ᵥ ![(7:ℚ)/6, -1/6]) = 5/6
    have hv : S9 *ᵥ ![(7:ℚ)/6, -1/6] = ![(5:ℚ)/6, 5/6] := by
      funext i
      fin_cases i <;>
        simp [S9, Matrix.mulVec, Matrix.dotProduct, Fin.sum_univ_two] <;>
        norm_num
    rw [hv, Matrix.dotProduct, Fin.sum_univ_two]
    norm_num
  rw [hmu, hsig]
  simp only [res9, MVResult.mk.injEq]
  norm_num

lemma res9_not_nonneg : allNonneg res9.w = false := by
  rw [allNonneg, decide_eq_false_iff_not]
  intro h
  have h1 := h 1
  simp only [res9] at h1
  norm_num at h1

lemma enumFrom_filter_nil {α : Type} (p : α → Bool) :
    ∀ (l : List α) (i : ℕ), (∀ a ∈ l, p a = false) →
      (List.enumFrom i l).filter (fun q => p q.2) = [] := by
  intro l
  induction l with
  | nil => intro i _; rfl
  | cons x xs ih =>
    intro i h
    rw [List.enumFrom, List.filter_cons]
    have hx : p x = false := h x (List.mem_cons_self x xs)
    simp only [hx]
    simp [ih (i + 1) (fun a ha => h a (List.mem_cons_of_mem _ ha))]

lemma argmaxAux_replicate (v : Option ℚ) (hv : ratioLtB v v = false) :
    ∀ (k i best : ℕ), argmaxAux (List.replicate k v) i best v = best := by
  intro k
  induction k with
  | zero => intro i best; rfl
  | succ m ih =>
    intro i best
    rw [List.replicate_succ]
    simp only [argmaxAux, hv]
    simp only [Bool.false_eq_true, if_false]
    exact ih (i + 1) best

lemma argmaxIdx_replicate (k : ℕ) (v : Option ℚ) (hv : ratioLtB v v = false) :
    argmaxIdx (List.replicate (k + 1) v) = 0 := by
  rw [List.replicate_succ]
  show argmaxAux (List.replicate k v) 1 0 v = 0
  exact argmaxAux_replicate v hv k 1 0

lemma hres9 : (linspace 0 2 100).map (mvCore st9) = List.replicate 100 res9 := by
  rw [List.map_congr_left (fun t _ => mv9_core t), List.map_const']
  rw [show (linspace 0 2 100).length = 100 from by
    simp only [linspace, List.length_map, List.length_range]]

lemma hratio9 : ratioLtB (some ((6:ℚ)/5)) (some ((6:ℚ)/5)) = false := by
  simp only [ratioLtB]
  exact decide_eq_false (lt_irrefl _)

lemma hfilter9 : ((linspace 0 2 100).map (mvCore st9)).enum.filter
    (fun p => allNonneg p.2.w) = [] := by
  rw [hres9]
  exact enumFrom_filter_nil (fun r => allNonneg r.w) (List.replicate 100 res9) 0
    (fun a ha => by rw [List.eq_of_mem_replicate ha]; exact res9_not_nonneg)

lemma hfind9 : (find_optimal_portfolio st9 0 2 100 true).toOption.map
    (fun p => p.2.w 1) = some (-1/6) := by
  simp only [find_optimal_portfolio]
  rw [if_neg (by norm_num : ¬((0:ℚ) < 0 ∨ (2:ℚ) < 0))]
  simp only [Bool.cond_true]
  rw [hfilter9]
  simp only [List.map_nil]
  simp only [if_true]
  rw [hres9, List.map_replicate]
  rw [show res9.rVal = some ((6:ℚ)/5) from rfl]
  rw [show (100:ℕ) = 99 + 1 from rfl]
  rw [argmaxIdx_replicate 99 _ hratio9]
  rw [List.replicate_succ, List.getD_cons_zero]
  show some (res9.w 1) = some (-1/6)
  simp only [res9]
  norm_num

/-- C9 counterexample: for μ = (1,1), Σ = [[1,2],[2,9]],
tau_range = (0,2), num_points = 100 and
`enforce_positive_weights = True`, every sampled portfolio has the
negative weight −1/6, yet the sweep returns that portfolio successfully
(with a printed warning) instead of raising an error. -/
theorem c9_counterexample :
    mkMeanVariance mu9 S9 = .ok st9 ∧
    (find_optimal_portfolio st9 0 2 100 true).toOption.map (fun p => p.2.w 1) =
      some (-1/6) ∧ ((-1/6 : ℚ) < 0) := by
  refine ⟨?_, hfind9, by norm_num⟩
  rw [mkMeanVariance,
    if_neg (by simp only [S9, Matrix.det_fin_two_of]; norm_num : ¬S9.det = 0)]
  rfl

/-- C9 witness for the amended claim: at the concrete input above the
enforcing sweep returns exactly the unconstrained sweep's portfolio. -/
theorem c9_witness :
    find_optimal_portfolio st9 0 2 100 true =
      find_optimal_portfolio st9 0 2 100 false :=
  c9_sweep_silent_fallback st9 0 2 100 (by norm_num) hfilter9

end InvestFlow
